import Mathlib

/-!
Verification of the manif library core: the De Casteljau curve-fitting
algorithm on Lie groups (`decasteljau.h`) and the SE(3) group element
operations (`SE3_base.h`), shallowly embedded in Lean 4.
-/

namespace Manif

open Matrix

/-- Abstract manifold operations used by the generic `decasteljau` template:
`rplus` (retraction ⊕), `rminus` (difference ⊖, `rminus b a` models
`b.rminus(a)`), and scalar multiplication of a tangent by a `double`
(modelled as `ℚ`). -/
structure ManifOps (M T : Type) where
  rplus : M → T → M
  rminus : M → M → T
  smul : T → ℚ → T

/-- One round of the De Casteljau blending loop
(`decasteljau.h` lines 88-97): each adjacent pair `(Qs[q], Qs[q+1])` is
replaced by `Qs[q].rplus(Qs[q+1].rminus(Qs[q]) * t_01)`. -/
def blendRound {M T : Type} (ops : ManifOps M T) (t : ℚ) (Qs : List M) : List M :=
  (Qs.zip Qs.tail).map (fun p => ops.rplus p.1 (ops.smul (ops.rminus p.2 p.1) t))

/-- The three `MANIF_CHECK` preconditions of `decasteljau`
(`decasteljau.h` lines 31-33): `trajectory.size() > 2`,
`degree <= trajectory.size()`, `k_interp > 0`. -/
def decasteljauChecks (len degree k_interp : ℕ) : Bool :=
  decide (2 < len) && decide (degree ≤ len) && decide (0 < k_interp)

/-- The segment count of `decasteljau` (`decasteljau.h` lines 36-37):
`std::floor(double(trajectory.size()-degree)/(degree-1)+1)`.  For
`degree ≥ 2` the floating-point floor equals natural-number division. -/
def nSegments (len degree : ℕ) : ℕ :=
  (len - degree) / (degree - 1) + 1

/-- The full-segment windows of control points (`decasteljau.h` lines
39-49): window `s` holds the trajectory points at indices
`s*(degree-1)+n` for `n = 0, …, degree-1`. -/
def baseSegments {M : Type} [Inhabited M] (traj : List M) (degree : ℕ) :
    List (List M) :=
  (List.range (nSegments traj.length degree)).map (fun s =>
    (List.range degree).map (fun n => traj.getD (s * (degree - 1) + n) default))

/-- All segment windows including the closed-curve wrap-around segment
(`decasteljau.h` lines 51-69): when `closed_curve` holds and
`last_pts_idx <= trajectory.size()-1`, one extra window is appended,
holding the trajectory points from index `last_pts_idx` to the end
followed by the first `degree-left_over-1` trajectory points. -/
def allSegments {M : Type} [Inhabited M] (traj : List M) (degree : ℕ)
    (closed_curve : Bool) : List (List M) :=
  let last_pts_idx := nSegments traj.length degree * (degree - 1)
  if closed_curve ∧ last_pts_idx ≤ traj.length - 1 then
    let left_over := traj.length - 1 - last_pts_idx
    baseSegments traj degree ++
      [(List.range' last_pts_idx (traj.length - last_pts_idx)).map
          (fun p => traj.getD p default) ++
        (List.range (degree - left_over - 1)).map
          (fun p => traj.getD p default)]
  else baseSegments traj degree

/-- Per-segment interpolation density (`decasteljau.h` lines 71-72):
`k_interp` when `degree == 2`, else `k_interp * degree`. -/
def segmentK (degree k_interp : ℕ) : ℕ :=
  if degree = 2 then k_interp else k_interp * degree

/-- Sampling of one segment (`decasteljau.h` lines 78-100): for each
`t = 1, …, K` the parameter `t_01 = t / K` is formed and `degree - 1`
rounds of `blendRound` are run over the segment's control points; the
head of the resulting list (`Qs[0]`) is the sample. -/
def sampleSegment {M T : Type} [Inhabited M] (ops : ManifOps M T)
    (degree K : ℕ) (cps : List M) : List M :=
  (List.range' 1 K).map (fun (t : ℕ) =>
    ((blendRound ops ((t : ℚ) / (K : ℚ)))^[degree - 1] cps).headI)

/-- The De Casteljau curve-fitting entry point (`decasteljau.h` lines
24-104).  The fatal `MANIF_CHECK` precondition failure is modelled as
`none` (no partial result); on success the curve is the concatenation,
in segment order, of the samples of every segment.  The `double`
parameter `t_01` is modelled as the exact rational `t / K`.  For
`degree ≤ 1` the C++ segment-count expression divides by zero
(respectively wraps around); the embedding is only claimed faithful for
`degree ≥ 2`, and the `degree ≤ 1` behaviour is treated separately via
`decasteljauChecks`. -/
def decasteljau {M T : Type} [Inhabited M] (ops : ManifOps M T)
    (traj : List M) (degree k_interp : ℕ) (closed_curve : Bool) :
    Option (List M) :=
  if decasteljauChecks traj.length degree k_interp then
    some ((allSegments traj degree closed_curve).flatMap
      (sampleSegment ops degree (segmentK degree k_interp)))
  else none

/-- A trivial manifold instance on `ℚ` (tangent `ℚ`) used to exercise the
generic algorithm on concrete inputs. -/
def ratOps : ManifOps ℚ ℚ where
  rplus := fun a v => a + v
  rminus := fun a b => a - b
  smul := fun v t => v * t

/-! ### Structural lemmas about the blending loop and the segments -/

lemma blendRound_length {M T : Type} (ops : ManifOps M T) (t : ℚ)
    (Qs : List M) : (blendRound ops t Qs).length = Qs.length - 1 := by
  simp [blendRound, List.length_zip, List.length_tail]

lemma blendRound_iterate_length {M T : Type} (ops : ManifOps M T) (t : ℚ)
    (m : ℕ) (Qs : List M) :
    ((blendRound ops t)^[m] Qs).length = Qs.length - m := by
  induction m generalizing Qs with
  | zero => simp
  | succ n ih =>
      rw [Function.iterate_succ_apply, ih, blendRound_length]
      omega

lemma blendRound_iterate_singleton {M T : Type} (ops : ManifOps M T)
    (t : ℚ) (m : ℕ) (Qs : List M) (h : Qs.length = m + 1) :
    ∃ p, (blendRound ops t)^[m] Qs = [p] := by
  rw [← List.length_eq_one, blendRound_iterate_length, h]
  omega

lemma sampleSegment_length {M T : Type} [Inhabited M] (ops : ManifOps M T)
    (degree K : ℕ) (cps : List M) :
    (sampleSegment ops degree K cps).length = K := by
  rw [sampleSegment, List.length_map, List.length_range']

lemma nSegments_mul_arith (len d : ℕ) (hd : 2 ≤ d) (hlen : d ≤ len) :
    nSegments len d * (d - 1) + (len - d) % (d - 1) = len - 1 ∧
      (len - d) % (d - 1) < d - 1 := by
  have hq := Nat.div_add_mod (len - d) (d - 1)
  have hr : (len - d) % (d - 1) < d - 1 := Nat.mod_lt _ (by omega)
  have key : nSegments len d * (d - 1) =
      (d - 1) * ((len - d) / (d - 1)) + (d - 1) := by
    unfold nSegments; ring
  rw [key]
  omega

lemma baseSegments_length {M : Type} [Inhabited M] (traj : List M)
    (degree : ℕ) :
    (baseSegments traj degree).length = nSegments traj.length degree := by
  simp [baseSegments]

lemma baseSegments_getD {M : Type} [Inhabited M] (traj : List M)
    (degree s : ℕ) (hs : s < nSegments traj.length degree) :
    (baseSegments traj degree).getD s [] =
      (List.range degree).map (fun n => traj.getD (s * (degree - 1) + n) default) := by
  have hs' : s < (baseSegments traj degree).length := by
    rwa [baseSegments_length]
  rw [List.getD_eq_getElem _ _ hs']
  simp only [baseSegments, List.getElem_map, List.getElem_range]

lemma baseSegments_mem_length {M : Type} [Inhabited M] (traj : List M)
    (degree : ℕ) :
    ∀ cps ∈ baseSegments traj degree, cps.length = degree := by
  intro cps hcps
  obtain ⟨s, _, rfl⟩ := List.mem_map.mp hcps
  simp

lemma allSegments_false {M : Type} [Inhabited M] (traj : List M)
    (degree : ℕ) :
    allSegments traj degree false = baseSegments traj degree := by
  simp [allSegments]

lemma allSegments_true {M : Type} [Inhabited M] (traj : List M)
    (degree : ℕ) (hd : 2 ≤ degree) (hlen : degree ≤ traj.length) :
    allSegments traj degree true =
      baseSegments traj degree ++
        [(List.range' (nSegments traj.length degree * (degree - 1))
            (traj.length - nSegments traj.length degree * (degree - 1))).map
              (fun p => traj.getD p default) ++
          (List.range
              (degree - (traj.length - 1 -
                nSegments traj.length degree * (degree - 1)) - 1)).map
            (fun p => traj.getD p default)] := by
  obtain ⟨h1, h2⟩ := nSegments_mul_arith traj.length degree hd hlen
  unfold allSegments
  rw [if_pos]
  exact ⟨rfl, by omega⟩

lemma allSegments_mem_length {M : Type} [Inhabited M] (traj : List M)
    (degree : ℕ) (closed : Bool) (hd : 2 ≤ degree)
    (hlen : degree ≤ traj.length) :
    ∀ cps ∈ allSegments traj degree closed, cps.length = degree := by
  obtain ⟨h1, h2⟩ := nSegments_mul_arith traj.length degree hd hlen
  intro cps hcps
  cases closed with
  | false =>
      rw [allSegments_false] at hcps
      exact baseSegments_mem_length traj degree cps hcps
  | true =>
      rw [allSegments_true traj degree hd hlen] at hcps
      rcases List.mem_append.mp hcps with h | h
      · exact baseSegments_mem_length traj degree cps h
      · rcases List.mem_singleton.mp h with rfl
        rw [List.length_append, List.length_map, List.length_map,
          List.length_range', List.length_range]
        omega

lemma allSegments_length {M : Type} [Inhabited M] (traj : List M)
    (degree : ℕ) (closed : Bool) (hd : 2 ≤ degree)
    (hlen : degree ≤ traj.length) :
    (allSegments traj degree closed).length =
      nSegments traj.length degree + (if closed then 1 else 0) := by
  cases closed with
  | false => rw [allSegments_false, baseSegments_length]; simp
  | true =>
      rw [allSegments_true traj degree hd hlen, List.length_append,
        baseSegments_length]
      simp

lemma flatMap_getD_const {α β : Type} (l : List α) (f : α → List β)
    (K : ℕ) (hf : ∀ a ∈ l, (f a).length = K) (s j : ℕ)
    (hs : s < l.length) (hj : j < K) (d : β) (d₀ : α) :
    (l.flatMap f).getD (s * K + j) d = (f (l.getD s d₀)).getD j d := by
  induction l generalizing s with
  | nil => simp at hs
  | cons a l ih =>
      rw [List.flatMap_cons]
      cases s with
      | zero =>
          rw [Nat.zero_mul, Nat.zero_add, List.getD_append,
            List.getD_cons_zero]
          rw [hf a (List.mem_cons_self a l)]
          exact hj
      | succ s =>
          have hlen : (f a).length = K := hf a (List.mem_cons_self a l)
          have hidx : (s + 1) * K + j = (f a).length + (s * K + j) := by
            rw [hlen, Nat.succ_mul]; omega
          rw [hidx, List.getD_append_right _ _ _ _ (by omega),
            Nat.add_sub_cancel_left, List.getD_cons_succ]
          exact ih (fun x hx => hf x (List.mem_cons_of_mem a hx)) s
            (by simpa using hs)

lemma flatMap_length_const {α β : Type} (l : List α) (f : α → List β)
    (K : ℕ) (hf : ∀ a ∈ l, (f a).length = K) :
    (l.flatMap f).length = l.length * K := by
  induction l with
  | nil => simp
  | cons a l ih =>
      rw [List.flatMap_cons, List.length_append,
        hf a (List.mem_cons_self a l),
        ih (fun x hx => hf x (List.mem_cons_of_mem a hx))]
      rw [List.length_cons, Nat.succ_mul]
      omega

lemma sampleSegment_getD {M T : Type} [Inhabited M] (ops : ManifOps M T)
    (degree K j : ℕ) (cps : List M) (hj : j < K) :
    (sampleSegment ops degree K cps).getD j default =
      ((blendRound ops (((1 + j : ℕ) : ℚ) / (K : ℚ)))^[degree - 1] cps).headI := by
  have hj' : j < (sampleSegment ops degree K cps).length := by
    rwa [sampleSegment_length]
  rw [List.getD_eq_getElem _ _ hj']
  simp only [sampleSegment, List.getElem_map, List.getElem_range', one_mul]

lemma decasteljau_some {M T : Type} [Inhabited M] (ops : ManifOps M T)
    (traj : List M) (degree k_interp : ℕ) (closed : Bool)
    (h3 : 2 < traj.length) (hlen : degree ≤ traj.length)
    (hk : 0 < k_interp) :
    decasteljau ops traj degree k_interp closed =
      some ((allSegments traj degree closed).flatMap
        (sampleSegment ops degree (segmentK degree k_interp))) := by
  rw [decasteljau, if_pos]
  rw [decasteljauChecks]
  simp [h3, hlen, hk]

lemma decasteljau_curve_getD {M T : Type} [Inhabited M] (ops : ManifOps M T)
    (traj : List M) (degree k_interp : ℕ) (closed : Bool)
    (s i : ℕ) (hs : s < (allSegments traj degree closed).length)
    (hi1 : 1 ≤ i) (hiK : i ≤ segmentK degree k_interp) :
    ((allSegments traj degree closed).flatMap
        (sampleSegment ops degree (segmentK degree k_interp))).getD
      (s * segmentK degree k_interp + (i - 1)) default =
      ((blendRound ops ((i : ℚ) / (segmentK degree k_interp : ℚ)))^[degree - 1]
        ((allSegments traj degree closed).getD s [])).headI := by
  rw [flatMap_getD_const _ _ (segmentK degree k_interp)
    (fun a _ => sampleSegment_length ops degree _ a) s (i - 1) hs
    (by omega) default ([] : List M)]
  rw [sampleSegment_getD ops degree _ (i - 1) _ (by omega)]
  have : 1 + (i - 1) = i := by omega
  rw [this]

lemma decasteljauChecks_iff (len d k : ℕ) :
    decasteljauChecks len d k = true ↔ (2 < len ∧ d ≤ len ∧ 0 < k) := by
  simp [decasteljauChecks, and_assoc]

/-! ### Claim theorems for the curve-fitting algorithm -/

/-- C2: for every input satisfying the preconditions (with a meaningful
degree, `degree ≥ 2`), `decasteljau` partitions the trajectory into
`n_segments = (len - degree)/(degree-1) + 1` windows; window `s` holds
the `degree` consecutive control points at indices `s*(degree-1) + n`
(`n < degree`), all in bounds, and consecutive windows share exactly the
one index `(s+1)*(degree-1)`. -/
theorem decasteljau_windows {M : Type} [Inhabited M] (traj : List M)
    (degree : ℕ) (hd : 2 ≤ degree) (hlen : degree ≤ traj.length) :
    (baseSegments traj degree).length = nSegments traj.length degree ∧
    (∀ s, s < nSegments traj.length degree →
      (baseSegments traj degree).getD s [] =
        (List.range degree).map
          (fun n => traj.getD (s * (degree - 1) + n) default) ∧
      ((baseSegments traj degree).getD s []).length = degree ∧
      s * (degree - 1) + (degree - 1) < traj.length) ∧
    (∀ s i : ℕ,
      ((∃ n < degree, i = s * (degree - 1) + n) ∧
        (∃ n < degree, i = (s + 1) * (degree - 1) + n)) ↔
      i = (s + 1) * (degree - 1)) := by
  obtain ⟨h1, h2⟩ := nSegments_mul_arith traj.length degree hd hlen
  refine ⟨baseSegments_length traj degree, fun s hs => ?_, fun s i => ?_⟩
  · refine ⟨baseSegments_getD traj degree s hs, ?_, ?_⟩
    · rw [baseSegments_getD traj degree s hs]; simp
    · have hmul : (s + 1) * (degree - 1) ≤
          nSegments traj.length degree * (degree - 1) :=
        Nat.mul_le_mul_right _ (by omega)
      have hsucc : (s + 1) * (degree - 1) = s * (degree - 1) + (degree - 1) := by
        ring
      omega
  · have hsucc : (s + 1) * (degree - 1) = s * (degree - 1) + (degree - 1) := by
      ring
    constructor
    · rintro ⟨⟨n₁, hn₁, rfl⟩, ⟨n₂, hn₂, h₂⟩⟩
      omega
    · intro h
      subst h
      exact ⟨⟨degree - 1, by omega, by omega⟩, ⟨0, by omega, by omega⟩⟩

theorem decasteljau_windows_witness :
    (baseSegments ([0, 1, 2, 3, 4] : List ℚ) 3).length = 2 ∧
    (baseSegments ([0, 1, 2, 3, 4] : List ℚ) 3).getD 1 [] = [2, 3, 4] := by
  obtain ⟨h1, h2, h3⟩ :=
    decasteljau_windows ([0, 1, 2, 3, 4] : List ℚ) 3 (by decide) (by decide)
  exact ⟨h1.trans (by decide), ((h2 1 (by decide)).1).trans (by decide)⟩

/-- C1: for every input satisfying the preconditions (with `degree ≥ 2`),
each output point is obtained by evaluating its segment at the sample
parameter `t = i / segment_k_interp`, `i = 1, …, segment_k_interp`:
running `degree - 1` rounds of `blendRound` (each adjacent pair
`(Qi, Qi+1)` replaced by `Qi.rplus(Qi+1.rminus(Qi) * t)`) leaves exactly
one point, and that point is the curve entry; for `degree = 2` the sample
at `t = i/k` is `control[s] ⊕ (t · (control[s+1] ⊖ control[s]))`. -/
theorem decasteljau_blend_eval {M T : Type} [Inhabited M]
    (ops : ManifOps M T) (traj : List M) (degree k_interp : ℕ)
    (closed : Bool) (h3 : 2 < traj.length) (hd : 2 ≤ degree)
    (hlen : degree ≤ traj.length) (hk : 0 < k_interp) :
    ∃ curve, decasteljau ops traj degree k_interp closed = some curve ∧
      (∀ s, s < (allSegments traj degree closed).length →
        ∀ i, 1 ≤ i → i ≤ segmentK degree k_interp →
          ∃ p, (blendRound ops
                ((i : ℚ) / (segmentK degree k_interp : ℚ)))^[degree - 1]
                ((allSegments traj degree closed).getD s []) = [p] ∧
            curve.getD (s * segmentK degree k_interp + (i - 1)) default = p) ∧
      (degree = 2 → closed = false →
        ∀ s, s + 1 < traj.length → ∀ i, 1 ≤ i → i ≤ k_interp →
          curve.getD (s * k_interp + (i - 1)) default =
            ops.rplus (traj.getD s default)
              (ops.smul
                (ops.rminus (traj.getD (s + 1) default) (traj.getD s default))
                ((i : ℚ) / (k_interp : ℚ)))) := by
  refine ⟨_, decasteljau_some ops traj degree k_interp closed h3 hlen hk,
    ?_, ?_⟩
  · intro s hs i hi1 hiK
    have hmem : (allSegments traj degree closed).getD s [] ∈
        allSegments traj degree closed := by
      rw [List.getD_eq_getElem _ _ hs]; exact List.getElem_mem hs
    have hL := allSegments_mem_length traj degree closed hd hlen _ hmem
    obtain ⟨p, hp⟩ :=
      blendRound_iterate_singleton ops
        ((i : ℚ) / (segmentK degree k_interp : ℚ)) (degree - 1)
        ((allSegments traj degree closed).getD s []) (by omega)
    refine ⟨p, hp, ?_⟩
    rw [decasteljau_curve_getD ops traj degree k_interp closed s i hs hi1 hiK,
      hp]
    rfl
  · rintro rfl rfl
    intro s hs i hi1 hik
    have hK : segmentK 2 k_interp = k_interp := by rw [segmentK]; simp
    have hns : nSegments traj.length 2 = traj.length - 1 := by
      rw [nSegments]; omega
    have hs' : s < (allSegments traj 2 false).length := by
      rw [allSegments_false, baseSegments_length, hns]; omega
    have hgd := decasteljau_curve_getD ops traj 2 k_interp false s i hs' hi1
      (by rwa [hK])
    rw [hK] at hgd
    rw [hK, hgd, allSegments_false, baseSegments_getD traj 2 s (by omega)]
    have h01 : (List.range 2).map
        (fun n => traj.getD (s * (2 - 1) + n) default) =
        [traj.getD s default, traj.getD (s + 1) default] := by
      norm_num [List.range_succ]
    rw [h01, Function.iterate_one]
    rfl

theorem decasteljau_blend_eval_witness :
    ∃ curve, decasteljau ratOps ([0, 1, 2] : List ℚ) 2 2 false = some curve ∧
      curve.getD (0 * 2 + (1 - 1)) default =
        ratOps.rplus (([0, 1, 2] : List ℚ).getD 0 default)
          (ratOps.smul
            (ratOps.rminus (([0, 1, 2] : List ℚ).getD 1 default)
              (([0, 1, 2] : List ℚ).getD 0 default))
            (((1 : ℕ) : ℚ) / ((2 : ℕ) : ℚ))) := by
  obtain ⟨c, hc, -, hb⟩ :=
    decasteljau_blend_eval ratOps ([0, 1, 2] : List ℚ) 2 2 false
      (by decide) (by decide) (by decide) (by decide)
  exact ⟨c, hc, hb rfl rfl 0 (by decide) 1 (by decide) (by decide)⟩

/-- C4: for every input satisfying the preconditions (with `degree ≥ 2`),
the output has exactly `(n_segments + extra) * segment_k_interp` points
where `extra = 1` exactly when the wrap-around segment is formed
(i.e. when `closed_curve` is set), and
`segment_k_interp = k_interp` for `degree = 2` and `k_interp * degree`
otherwise; e.g. a length-5 trajectory with `degree = 3`, `k_interp = 5`,
`closed_curve = false` yields `2 * 15 = 30` points. -/
theorem decasteljau_output_length {M T : Type} [Inhabited M]
    (ops : ManifOps M T) (traj : List M) (degree k_interp : ℕ)
    (closed : Bool) (h3 : 2 < traj.length) (hd : 2 ≤ degree)
    (hlen : degree ≤ traj.length) (hk : 0 < k_interp) :
    ∃ curve, decasteljau ops traj degree k_interp closed = some curve ∧
      curve.length = (nSegments traj.length degree +
        (if closed then 1 else 0)) * segmentK degree k_interp ∧
      segmentK degree k_interp =
        (if degree = 2 then k_interp else k_interp * degree) := by
  refine ⟨_, decasteljau_some ops traj degree k_interp closed h3 hlen hk,
    ?_, rfl⟩
  rw [flatMap_length_const _ _ (segmentK degree k_interp)
    (fun a _ => sampleSegment_length ops degree _ a),
    allSegments_length traj degree closed hd hlen]

theorem decasteljau_output_length_witness :
    ∃ curve, decasteljau ratOps ([0, 1, 2, 3, 4] : List ℚ) 3 5 false =
        some curve ∧ curve.length = 30 := by
  obtain ⟨c, hc, hL, -⟩ :=
    decasteljau_output_length ratOps ([0, 1, 2, 3, 4] : List ℚ) 3 5 false
      (by decide) (by decide) (by decide) (by decide)
  exact ⟨c, hc, hL.trans (by decide)⟩

/-- C5: `decasteljau` fails (returns no result) precisely when the
trajectory length is ≤ 2, or the degree exceeds the trajectory length,
or `k_interp = 0`; in particular a 2-element trajectory fails for every
degree and `k_interp`. -/
theorem decasteljau_precondition_failure {M T : Type} [Inhabited M]
    (ops : ManifOps M T) :
    (∀ (traj : List M) (degree k_interp : ℕ) (closed : Bool),
      decasteljau ops traj degree k_interp closed = none ↔
        (traj.length ≤ 2 ∨ traj.length < degree ∨ k_interp = 0)) ∧
    (∀ (p0 p1 : M) (degree k_interp : ℕ) (closed : Bool),
      decasteljau ops [p0, p1] degree k_interp closed = none) := by
  have main : ∀ (traj : List M) (degree k_interp : ℕ) (closed : Bool),
      decasteljau ops traj degree k_interp closed = none ↔
        (traj.length ≤ 2 ∨ traj.length < degree ∨ k_interp = 0) := by
    intro traj degree k_interp closed
    rw [decasteljau]
    by_cases hc : decasteljauChecks traj.length degree k_interp = true
    · rw [if_pos hc]
      rw [decasteljauChecks_iff] at hc
      have : ¬(traj.length ≤ 2 ∨ traj.length < degree ∨ k_interp = 0) := by
        omega
      simp [this]
    · rw [if_neg hc]
      rw [decasteljauChecks_iff] at hc
      have : traj.length ≤ 2 ∨ traj.length < degree ∨ k_interp = 0 := by
        omega
      simp [this]
  exact ⟨main, fun p0 p1 degree k_interp closed =>
    (main [p0, p1] degree k_interp closed).mpr (Or.inl (by simp))⟩

/-- C10: the precondition checks do not exclude `degree = 0` or
`degree = 1`: any trajectory of length > 2 with `k_interp > 0` passes all
three checks for `degree ≤ 1` and the call is not rejected (it reaches
the segment-count expression, whose divisor `degree - 1` is zero there;
in C++ unsigned arithmetic `0 - 1` wraps around). -/
theorem decasteljau_checks_degenerate {M T : Type} [Inhabited M]
    (ops : ManifOps M T) (traj : List M) (k_interp : ℕ) (closed : Bool)
    (h3 : 2 < traj.length) (hk : 0 < k_interp) :
    ∀ degree ≤ 1, decasteljauChecks traj.length degree k_interp = true ∧
      decasteljau ops traj degree k_interp closed ≠ none ∧
      degree - 1 = 0 := by
  intro d hd
  have hc : decasteljauChecks traj.length d k_interp = true := by
    rw [decasteljauChecks_iff]; omega
  refine ⟨hc, ?_, by omega⟩
  rw [decasteljau, if_pos hc]
  simp

theorem decasteljau_checks_degenerate_witness :
    decasteljauChecks ([0, 1, 2] : List ℚ).length 1 1 = true ∧
      decasteljau ratOps ([0, 1, 2] : List ℚ) 1 1 false ≠ none ∧
      1 - 1 = 0 :=
  decasteljau_checks_degenerate ratOps ([0, 1, 2] : List ℚ) 1 false
    (by decide) (by decide) 1 (by decide)

/-- C3 counterexample: for the 5-point trajectory with `degree = 3` no
points remain unconsumed after the last full segment
(`left_over = len - 1 - n_segments*(degree-1) = 0`), yet with
`closed_curve` set an additional wrap-around segment `[4, 0, 1]` is
formed. -/
theorem closed_wrap_no_leftover_counterexample :
    5 - 1 - nSegments 5 3 * (3 - 1) = 0 ∧
    allSegments ([0, 1, 2, 3, 4] : List ℚ) 3 true =
      [[0, 1, 2], [2, 3, 4], [4, 0, 1]] ∧
    (allSegments ([0, 1, 2, 3, 4] : List ℚ) 3 true).length =
      nSegments 5 3 + 1 ∧
    allSegments ([0, 1, 2, 3, 4] : List ℚ) 3 true ≠
      baseSegments ([0, 1, 2, 3, 4] : List ℚ) 3 := by
  decide

/-- C3 (amended): under the preconditions (with `degree ≥ 2`) the code's
leftover condition `last_pts_idx ≤ len - 1` always holds, so exactly one
wrap-around segment is formed whenever `closed_curve` is set (and never
when it is not); the wrap-around segment consists of the trailing
trajectory points from index `n_segments*(degree-1)` to the end
(`left_over + 1` points, the first of which is the last full segment's
endpoint) followed by the first `degree - left_over - 1` trajectory
points, exactly `degree` control points in total. -/
theorem closed_wrap_spec {M : Type} [Inhabited M] (traj : List M)
    (degree : ℕ) (hd : 2 ≤ degree) (hlen : degree ≤ traj.length)
    (h3 : 2 < traj.length) :
    nSegments traj.length degree * (degree - 1) ≤ traj.length - 1 ∧
    allSegments traj degree false = baseSegments traj degree ∧
    ∃ wrap, allSegments traj degree true =
        baseSegments traj degree ++ [wrap] ∧
      wrap.length = degree ∧
      wrap = (List.range' (nSegments traj.length degree * (degree - 1))
          ((traj.length - 1 - nSegments traj.length degree * (degree - 1)) + 1)).map
            (fun p => traj.getD p default) ++
        (List.range (degree -
            (traj.length - 1 - nSegments traj.length degree * (degree - 1)) - 1)).map
          (fun p => traj.getD p default) := by
  obtain ⟨h1, h2⟩ := nSegments_mul_arith traj.length degree hd hlen
  have hcount : traj.length - nSegments traj.length degree * (degree - 1) =
      (traj.length - 1 - nSegments traj.length degree * (degree - 1)) + 1 := by
    omega
  refine ⟨by omega, allSegments_false traj degree,
    _, allSegments_true traj degree hd hlen, ?_, by rw [← hcount]⟩
  rw [List.length_append, List.length_map, List.length_map,
    List.length_range', List.length_range]
  omega

theorem closed_wrap_spec_witness :
    ∃ wrap : List ℚ, allSegments ([0, 1, 2, 3, 4, 5, 6] : List ℚ) 3 true =
        baseSegments ([0, 1, 2, 3, 4, 5, 6] : List ℚ) 3 ++ [wrap] ∧
      wrap.length = 3 := by
  obtain ⟨-, -, wrap, hw, hL, -⟩ :=
    closed_wrap_spec ([0, 1, 2, 3, 4, 5, 6] : List ℚ) 3 (by decide)
      (by decide) (by decide)
  exact ⟨wrap, hw, hL⟩

/-! ### SE(3): data model and operations (`SE3_base.h`) -/

/-- Modelled from the spec: the rotation matrix of the embedded SO(3)
sub-object (`asSO3().rotation()` in `SE3Base::rotation`); the SO(3)
implementation is not among the sources under review, and the spec
describes the element as a unit quaternion acting through its rotation
matrix.  This is the standard rotation matrix of a unit quaternion
`(w, x, y, z)`. -/
def Rmat (q : Quaternion ℚ) : Matrix (Fin 3) (Fin 3) ℚ :=
  Matrix.of
    ![![1 - 2 * (q.imJ ^ 2 + q.imK ^ 2),
        2 * (q.imI * q.imJ - q.re * q.imK),
        2 * (q.imI * q.imK + q.re * q.imJ)],
      ![2 * (q.imI * q.imJ + q.re * q.imK),
        1 - 2 * (q.imI ^ 2 + q.imK ^ 2),
        2 * (q.imJ * q.imK - q.re * q.imI)],
      ![2 * (q.imI * q.imK - q.re * q.imJ),
        2 * (q.imJ * q.imK + q.re * q.imI),
        1 - 2 * (q.imI ^ 2 + q.imJ ^ 2)]]

/-- The skew (cross-product) matrix `T` built inside `SE3Base::adj`
(`SE3_base.h` lines 233-236) from the translation `(x, y, z)`. -/
def skew (t : Fin 3 → ℚ) : Matrix (Fin 3) (Fin 3) ℚ :=
  Matrix.of ![![0, -t 2, t 1], ![t 2, 0, -t 0], ![-t 1, t 0, 0]]

/-- An SE(3) group element: 3-vector translation (the leading
coefficients) plus a quaternion (the trailing coefficients), as in the
data model of `SE3_base.h`; the data-model invariant is that the
quaternion has unit norm. -/
@[ext]
structure SE3 where
  t : Fin 3 → ℚ
  q : Quaternion ℚ

/-- `SE3Base::setIdentity` (`SE3_base.h` lines 138-145): zero
translation, identity rotation. -/
def SE3.identity : SE3 := ⟨fun _ => 0, 1⟩

/-- `SE3Base::inverse`, group part (`SE3_base.h` lines 147-158): returns
`(-rotation().transpose() * translation(), asSO3().inverse().quat())`.
The SO(3) quaternion inverse is modelled from the spec ("returns the
inverse rotation") as the quaternion conjugate, the inverse of a unit
quaternion. -/
def SE3.inverse (g : SE3) : SE3 :=
  ⟨-((Rmat g.q)ᵀ *ᵥ g.t), star g.q⟩

/-- `SE3Base::compose`, group part (`SE3_base.h` lines 182-208):
translation `rotation() * m.translation() + translation()`, rotation
`asSO3().compose(m.asSO3())`.  The SO(3) composition is modelled from
the spec ("the rotation product") as the quaternion product. -/
def SE3.compose (a b : SE3) : SE3 :=
  ⟨Rmat a.q *ᵥ b.t + a.t, a.q * b.q⟩

/-- `SE3Base::adj` (`SE3_base.h` lines 229-246): the 6×6 adjoint,
represented with the block index `Fin 3 ⊕ Fin 3`; the top-left and
bottom-right blocks are the rotation matrix, the bottom-left block is
`T * rotation()` with `T = skew(translation)`, and the top-right block
is zero. -/
def SE3.adj (g : SE3) : Matrix (Fin 3 ⊕ Fin 3) (Fin 3 ⊕ Fin 3) ℚ :=
  Matrix.fromBlocks (Rmat g.q) 0 (skew g.t * Rmat g.q) (Rmat g.q)

/-- Eigen's dense-matrix `.inverse()` (used for `m.adj().inverse()` in
`SE3Base::compose`), modelled as the exact inverse
`det⁻¹ • adjugate`, which agrees with `Matrix.inv` over `ℚ`. -/
def matInv {n : Type} [Fintype n] [DecidableEq n]
    (A : Matrix n n ℚ) : Matrix n n ℚ :=
  A.det⁻¹ • A.adjugate

/-- `SE3Base::compose` with both Jacobian output slots requested
(`SE3_base.h` lines 196-204): `J_mc_ma = m.adj().inverse()` and
`J_mc_mb` set to the identity. -/
def SE3.composeJ (a b : SE3) :
    SE3 × Matrix (Fin 3 ⊕ Fin 3) (Fin 3 ⊕ Fin 3) ℚ ×
      Matrix (Fin 3 ⊕ Fin 3) (Fin 3 ⊕ Fin 3) ℚ :=
  (a.compose b, matInv b.adj, 1)

/-- `SE3Base::inverse` with the Jacobian output slot requested
(`SE3_base.h` lines 151-154): `J_minv_m = -adj()`. -/
def SE3.inverseJ (g : SE3) :
    SE3 × Matrix (Fin 3 ⊕ Fin 3) (Fin 3 ⊕ Fin 3) ℚ :=
  (g.inverse, -g.adj)

/-- Modelled from the spec: the two fatal failure kinds raised by the
library macros (`MANIF_CHECK` precondition failures and
`MANIF_NOT_IMPLEMENTED_YET`), whose bodies are not among the sources
under review; the spec requires them to be distinguishable. -/
inductive ManifFailure where
  | precondition
  | notImplementedYet
deriving DecidableEq

/-- `SE3Base::act` (`SE3_base.h` lines 210-227): if the Jacobian with
respect to the transform (`J_vout_m`) is requested, the call fails with
`MANIF_NOT_IMPLEMENTED_YET` before producing anything; otherwise the
point is mapped through the homogeneous transform (`transform() * v`,
i.e. `R·v + t` on a 3-point as the spec describes), and `J_vout_v` is
filled with the rotation matrix when requested. -/
def SE3.act (g : SE3) (v : Fin 3 → ℚ) (reqJm reqJv : Bool) :
    Except ManifFailure ((Fin 3 → ℚ) × Option (Matrix (Fin 3) (Fin 3) ℚ)) :=
  if reqJm then Except.error ManifFailure.notImplementedYet
  else Except.ok
    (Rmat g.q *ᵥ v + g.t, if reqJv then some (Rmat g.q) else none)

/-! ### Rotation-matrix algebra -/

lemma Rmat_star (q : Quaternion ℚ) : Rmat (star q) = (Rmat q)ᵀ := by
  obtain ⟨w, x, y, z⟩ := q
  ext i j
  fin_cases i <;> fin_cases j <;>
    simp [Rmat, QuaternionAlgebra.star_mk, Matrix.transpose_apply] <;> ring

set_option maxHeartbeats 800000 in
lemma Rmat_star_mul (q : Quaternion ℚ) (hq : Quaternion.normSq q = 1) :
    Rmat (star q) * Rmat q = 1 := by
  obtain ⟨w, x, y, z⟩ := q
  have h : w ^ 2 + x ^ 2 + y ^ 2 + z ^ 2 = 1 := by
    simpa [Quaternion.normSq_def'] using hq
  ext i j
  fin_cases i <;> fin_cases j <;>
    simp [Rmat, QuaternionAlgebra.star_mk, Matrix.mul_apply,
      Fin.sum_univ_three, Matrix.one_apply] <;>
    first
      | linear_combination (4 * z ^ 2 + 4 * y ^ 2) * h
      | linear_combination (-4 * x * y) * h
      | linear_combination (-4 * x * z) * h
      | linear_combination (4 * z ^ 2 + 4 * x ^ 2) * h
      | linear_combination (-4 * y * z) * h
      | linear_combination (4 * y ^ 2 + 4 * x ^ 2) * h

lemma Rmat_mul_star (q : Quaternion ℚ) (hq : Quaternion.normSq q = 1) :
    Rmat q * Rmat (star q) = 1 := by
  have h := Rmat_star_mul (star q) (by rwa [Quaternion.normSq_star])
  rwa [star_star] at h

lemma RmatT_mul (q : Quaternion ℚ) (hq : Quaternion.normSq q = 1) :
    (Rmat q)ᵀ * Rmat q = 1 := by
  rw [← Rmat_star]
  exact Rmat_star_mul q hq

lemma Rmat_mul_T (q : Quaternion ℚ) (hq : Quaternion.normSq q = 1) :
    Rmat q * (Rmat q)ᵀ = 1 := by
  rw [← Rmat_star]
  exact Rmat_mul_star q hq

set_option maxHeartbeats 1600000 in
lemma star_skew_conj (q : Quaternion ℚ) (hq : Quaternion.normSq q = 1)
    (v : Fin 3 → ℚ) :
    Rmat (star q) * (skew v * Rmat q) = skew (Rmat (star q) *ᵥ v) := by
  obtain ⟨w, x, y, z⟩ := q
  have h : w ^ 2 + x ^ 2 + y ^ 2 + z ^ 2 = 1 := by
    simpa [Quaternion.normSq_def'] using hq
  ext i j
  fin_cases i <;> fin_cases j <;>
    simp [Rmat, skew, QuaternionAlgebra.star_mk, Matrix.mul_apply,
      Matrix.mulVec, Matrix.dotProduct, Fin.sum_univ_three]
  · ring
  · linear_combination
      (-4 * z ^ 2 * (v 2) - 4 * y * z * (v 1) - 4 * x * z * (v 0)) * h
  · linear_combination
      (4 * y * z * (v 2) + 4 * y ^ 2 * (v 1) + 4 * x * y * (v 0)) * h
  · linear_combination
      (4 * z ^ 2 * (v 2) + 4 * y * z * (v 1) + 4 * x * z * (v 0)) * h
  · ring
  · linear_combination
      (-4 * x * z * (v 2) - 4 * x * y * (v 1) - 4 * x ^ 2 * (v 0)) * h
  · linear_combination
      (-4 * y * z * (v 2) - 4 * y ^ 2 * (v 1) - 4 * x * y * (v 0)) * h
  · linear_combination
      (4 * x * z * (v 2) + 4 * x * y * (v 1) + 4 * x ^ 2 * (v 0)) * h
  · ring

lemma skew_neg (v : Fin 3 → ℚ) : skew (-v) = -skew v := by
  ext i j
  fin_cases i <;> fin_cases j <;> simp [skew]

lemma inverse_adj_mul (g : SE3) (hq : Quaternion.normSq g.q = 1) :
    g.inverse.adj * g.adj = 1 := by
  show Matrix.fromBlocks (Rmat (star g.q)) 0
      (skew (-((Rmat g.q)ᵀ *ᵥ g.t)) * Rmat (star g.q)) (Rmat (star g.q)) *
    Matrix.fromBlocks (Rmat g.q) 0 (skew g.t * Rmat g.q) (Rmat g.q) = 1
  have hRR : Rmat (star g.q) * Rmat g.q = 1 := Rmat_star_mul g.q hq
  have hC : skew (-((Rmat g.q)ᵀ *ᵥ g.t)) * Rmat (star g.q) * Rmat g.q +
      Rmat (star g.q) * (skew g.t * Rmat g.q) = 0 := by
    rw [Matrix.mul_assoc, hRR, Matrix.mul_one, star_skew_conj g.q hq g.t,
      ← Rmat_star, skew_neg]
    exact neg_add_cancel _
  rw [Matrix.fromBlocks_multiply]
  simp only [Matrix.zero_mul, Matrix.mul_zero, add_zero, zero_add]
  rw [hRR, hC]
  exact Matrix.fromBlocks_one

lemma matInv_eq_inv {n : Type} [Fintype n] [DecidableEq n]
    (A : Matrix n n ℚ) : matInv A = A⁻¹ := by
  rw [Matrix.inv_def, Ring.inverse_eq_inv]
  rfl

lemma matInv_adj (g : SE3) (hq : Quaternion.normSq g.q = 1) :
    matInv g.adj = g.inverse.adj := by
  rw [matInv_eq_inv]
  exact Matrix.inv_eq_left_inv (inverse_adj_mul g hq)

/-! ### Claim theorems for SE(3) -/

/-- C6: `SE3Base::compose` returns the element with translation
`R_a · t_b + t_a` and rotation the composition of the two embedded
rotations; the Jacobian with respect to `a` is the inverse adjoint of
`b`, which (for a unit-norm `b`) equals `b.inverse().adj()`, and the
Jacobian with respect to `b` is the identity. -/
theorem SE3_compose_spec (a b : SE3) (hq : Quaternion.normSq b.q = 1) :
    (a.composeJ b).1.t = Rmat a.q *ᵥ b.t + a.t ∧
    (a.composeJ b).1.q = a.q * b.q ∧
    (a.composeJ b).2.1 = matInv b.adj ∧
    matInv b.adj = b.inverse.adj ∧
    (a.composeJ b).2.2 = 1 :=
  ⟨rfl, rfl, rfl, matInv_adj b hq, rfl⟩

theorem SE3_compose_spec_witness :
    matInv (SE3.adj ⟨![4, 5, 6], ⟨3/5, 4/5, 0, 0⟩⟩) =
      (SE3.inverse ⟨![4, 5, 6], ⟨3/5, 4/5, 0, 0⟩⟩).adj ∧
    (SE3.composeJ ⟨![1, 2, 3], 1⟩ ⟨![4, 5, 6], ⟨3/5, 4/5, 0, 0⟩⟩).2.2 = 1 := by
  obtain ⟨-, -, -, h4, h5⟩ :=
    SE3_compose_spec ⟨![1, 2, 3], 1⟩ ⟨![4, 5, 6], ⟨3/5, 4/5, 0, 0⟩⟩
      (by norm_num [Quaternion.normSq_def'])
  exact ⟨h4, h5⟩

/-- C7: `SE3Base::inverse` returns the element `(-Rᵀt, R⁻¹)` (the
returned rotation matrix is `Rᵀ`, the two-sided inverse of `R` for a
unit-norm quaternion); the requested Jacobian is the negative 6×6
adjoint, whose top-left and bottom-right blocks are `R`, bottom-left
block `skew(t) · R`, and top-right block zero. -/
theorem SE3_inverse_spec (g : SE3) (hq : Quaternion.normSq g.q = 1) :
    g.inverse.t = -((Rmat g.q)ᵀ *ᵥ g.t) ∧
    Rmat g.inverse.q = (Rmat g.q)ᵀ ∧
    (Rmat g.q)ᵀ * Rmat g.q = 1 ∧
    Rmat g.q * (Rmat g.q)ᵀ = 1 ∧
    g.inverseJ = (g.inverse, -g.adj) ∧
    g.adj = Matrix.fromBlocks (Rmat g.q) 0 (skew g.t * Rmat g.q) (Rmat g.q) :=
  ⟨rfl, Rmat_star g.q, RmatT_mul g.q hq, Rmat_mul_T g.q hq, rfl, rfl⟩

theorem SE3_inverse_spec_witness :
    Rmat (SE3.inverse ⟨![1, 2, 3], ⟨3/5, 0, 4/5, 0⟩⟩).q =
      (Rmat (⟨3/5, 0, 4/5, 0⟩ : Quaternion ℚ))ᵀ ∧
    (Rmat (⟨3/5, 0, 4/5, 0⟩ : Quaternion ℚ))ᵀ *
      Rmat (⟨3/5, 0, 4/5, 0⟩ : Quaternion ℚ) = 1 := by
  obtain ⟨-, h2, h3, -, -, -⟩ :=
    SE3_inverse_spec ⟨![1, 2, 3], ⟨3/5, 0, 4/5, 0⟩⟩
      (by norm_num [Quaternion.normSq_def'])
  exact ⟨h2, h3⟩

/-- C8: for every SE(3) element `g` with unit-norm quaternion,
`g.compose(g.inverse())` is exactly the group identity (zero
translation, identity rotation) in the exact rational model. -/
theorem SE3_compose_inverse (g : SE3) (hq : Quaternion.normSq g.q = 1) :
    g.compose g.inverse = SE3.identity := by
  apply SE3.ext
  · show Rmat g.q *ᵥ (-((Rmat g.q)ᵀ *ᵥ g.t)) + g.t = fun _ => 0
    rw [Matrix.mulVec_neg, Matrix.mulVec_mulVec, ← Rmat_star,
      Rmat_mul_star g.q hq, Matrix.one_mulVec]
    funext i
    simp
  · show g.q * star g.q = 1
    rw [Quaternion.self_mul_star, hq]
    exact_mod_cast rfl

theorem SE3_compose_inverse_witness :
    SE3.compose ⟨![1, 2, 3], ⟨3/5, 4/5, 0, 0⟩⟩
      (SE3.inverse ⟨![1, 2, 3], ⟨3/5, 4/5, 0, 0⟩⟩) = SE3.identity :=
  SE3_compose_inverse ⟨![1, 2, 3], ⟨3/5, 4/5, 0, 0⟩⟩
    (by norm_num [Quaternion.normSq_def'])

/-- C9: `SE3Base::act` maps the point through the homogeneous transform
(`R·v + t`); requesting the Jacobian with respect to the vector fills it
with the rotation matrix; requesting the Jacobian with respect to the
transform itself always fails with the explicit not-implemented-yet
failure, which is distinguishable from a precondition failure, and no
value is returned in that case. -/
theorem SE3_act_spec (g : SE3) (v : Fin 3 → ℚ) :
    (∀ reqJv, g.act v true reqJv =
      Except.error ManifFailure.notImplementedYet) ∧
    g.act v false true = Except.ok (Rmat g.q *ᵥ v + g.t, some (Rmat g.q)) ∧
    g.act v false false = Except.ok (Rmat g.q *ᵥ v + g.t, none) ∧
    ManifFailure.notImplementedYet ≠ ManifFailure.precondition :=
  ⟨fun _ => rfl, rfl, rfl, by decide⟩

end Manif
